import Mathlib

/-! Verification of the `lz` multi-repo git status tool against its design
specification.  The embedding covers `cmd/git.go`, `internal/ui/scroll.go`,
`internal/ui/styles.go`, `internal/git/status.go` and `internal/git/discover.go`.

Modelling conventions:
* Go `int` is modelled as `Int`; all Go arithmetic in the covered code is
  ordinary signed arithmetic with no overflow-relevant operations.
* Go strings are modelled as Lean `String`, handled at the rune level
  (`String.data : List Char`); places where Go indexes bytes are noted.
* Results of external `git` subprocesses are modelled as an explicit
  environment record (`GitEnv`); `gitOutput` returns `""` on command failure,
  so a failed command is the environment field being `""`.
* The concurrent fan-out in `gatherEntries` is modelled as a sequence of
  writes to per-index slots executed in an arbitrary schedule.
* `lipgloss` styles are modelled as concrete SGR escape-sequence wrappers;
  `runewidth.StringWidth` as a per-rune display-cell width function.
-/

namespace Lz

/-! Section internal/ui/scroll.go : the Scroll viewport -/

/-- Go `Scroll` tracks viewport state (`internal/ui/scroll.go`).  Fields are Go
`int`s. -/
structure Scroll where
  Offset : Int
  Total : Int
  Height : Int
deriving DecidableEq, Repr

instance : Inhabited Scroll := ⟨⟨0, 0, 0⟩⟩

/-- Go `maxOffset` from scroll.go: `max(s.Total-s.Height, 0)`. -/
def Scroll.maxOffset (s : Scroll) : Int := max (s.Total - s.Height) 0

/-- Go `Up`: decrement offset if positive. -/
def Scroll.up (s : Scroll) : Scroll :=
  if s.Offset > 0 then { s with Offset := s.Offset - 1 } else s

/-- Go `Clamp`: clamp offset into `[0, maxOffset]` (upper bound first, then
lower bound, exactly as in the source). -/
def Scroll.clamp (s : Scroll) : Scroll :=
  let s1 := if s.Offset > s.maxOffset then { s with Offset := s.maxOffset } else s
  if s1.Offset < 0 then { s1 with Offset := 0 } else s1

/-- Go `Down`: increment offset and clamp. -/
def Scroll.down (s : Scroll) : Scroll :=
  Scroll.clamp { s with Offset := s.Offset + 1 }

/-- Go `Top`: jump to offset 0. -/
def Scroll.top (s : Scroll) : Scroll := { s with Offset := 0 }

/-- Go `Bottom`: jump to `maxOffset`. -/
def Scroll.bottom (s : Scroll) : Scroll := { s with Offset := s.maxOffset }

/-- The four scroll operations named by the spec. -/
inductive ScrollOp
  | up
  | down
  | top
  | bottom
deriving DecidableEq, Repr

/-- Apply one scroll operation. -/
def applyOp (s : Scroll) : ScrollOp → Scroll
  | .up => s.up
  | .down => s.down
  | .top => s.top
  | .bottom => s.bottom

/-- Apply a sequence of scroll operations, left to right. -/
def applyOps (s : Scroll) (ops : List ScrollOp) : Scroll :=
  ops.foldl applyOp s

/-- The scroll invariant from the spec: `0 ≤ offset ≤ max(total−height, 0)`. -/
def ScrollInv (s : Scroll) : Prop :=
  0 ≤ s.Offset ∧ s.Offset ≤ max (s.Total - s.Height) 0

instance (s : Scroll) : Decidable (ScrollInv s) := by
  unfold ScrollInv; infer_instance

theorem scrollInv_up {s : Scroll} (h : ScrollInv s) : ScrollInv s.up := by
  rcases h with ⟨h0, h1⟩
  unfold Scroll.up ScrollInv at *
  split <;> constructor <;> simp_all <;> omega

theorem scrollInv_clamp (s : Scroll) : ScrollInv s.clamp := by
  simp only [Scroll.clamp, Scroll.maxOffset, ScrollInv, max_def]
  split_ifs <;> simp_all <;> omega

theorem scrollInv_step {s : Scroll} (h : ScrollInv s) (op : ScrollOp) :
    ScrollInv (applyOp s op) := by
  cases op with
  | up => exact scrollInv_up h
  | down => exact scrollInv_clamp _
  | top =>
      refine ⟨le_refl _, ?_⟩
      exact le_max_right _ _
  | bottom =>
      refine ⟨le_max_right _ _, ?_⟩
      exact le_refl _

/-- C3: for every scroll state satisfying `0 ≤ offset ≤ max(total−height,0)`
and every sequence of Up/Down/Top/Bottom operations, the invariant still holds
after the whole sequence — and since every prefix of a sequence is itself a
sequence, it holds after each intermediate operation as well. -/
theorem C3_scroll_invariant (s : Scroll) (ops : List ScrollOp) (h : ScrollInv s) :
    ScrollInv (applyOps s ops) := by
  induction ops generalizing s with
  | nil => exact h
  | cons op rest ih => exact ih _ (scrollInv_step h op)

/-- Witness for C3 at a concrete state and operation sequence. -/
theorem C3_scroll_invariant_witness :
    ScrollInv ⟨2, 10, 4⟩ ∧
      ScrollInv (applyOps ⟨2, 10, 4⟩ [.down, .down, .down, .down, .down, .up, .top, .bottom]) :=
  ⟨by decide, C3_scroll_invariant ⟨2, 10, 4⟩ _ (by decide)⟩

/-! Section internal/ui/scroll.go : KeepCursorVisible -/

/-- Go `KeepCursorVisible(cursor, totalLines, viewportH)` from scroll.go. -/
def KeepCursorVisible (cursor totalLines viewportH : Int) : Int :=
  if viewportH ≤ 0 ∨ totalLines ≤ viewportH then 0
  else
    let o1 := if cursor > viewportH - 2 then cursor - viewportH + 2 else 0
    let o2 := if o1 > totalLines - viewportH then totalLines - viewportH else o1
    if o2 < 0 then 0 else o2

/-- C4: for viewport heights ≥ 2 (so that the window `[offset, offset+height−2]`
is nonempty), `c − h + 2` is the least offset whose window contains the cursor,
and `KeepCursorVisible` returns exactly that least offset clamped into
`[0, max(total−height, 0)]`. -/
theorem C4_keepCursorVisible_spec (c t h : Int) (hh : 2 ≤ h) :
    IsLeast { o : Int | o ≤ c ∧ c ≤ o + h - 2 } (c - h + 2) ∧
      KeepCursorVisible c t h = min (max (c - h + 2) 0) (max (t - h) 0) := by
  constructor
  · exact ⟨⟨by omega, by omega⟩, fun o ho => by obtain ⟨h1, h2⟩ := ho; omega⟩
  · unfold KeepCursorVisible
    simp only [min_def, max_def]
    split <;> split_ifs <;> omega

/-- Witness for C4, containing the spec's two concrete examples:
`keepCursorVisible(0,100,10) = 0` and `keepCursorVisible(99,100,10) = 90`. -/
theorem C4_keepCursorVisible_witness :
    (2:Int) ≤ 10 ∧
      KeepCursorVisible 0 100 10 = 0 ∧
      KeepCursorVisible 99 100 10 = 90 ∧
      KeepCursorVisible 99 100 10 = min (max (99 - 10 + 2) 0) (max (100 - 10) 0) :=
  ⟨by decide, by decide, by decide, (C4_keepCursorVisible_spec 99 100 10 (by decide)).2⟩

/-! Section internal/git : data model and status parsing -/

/-- Go `Repo` from `internal/git/discover.go`: a named repository path. -/
structure Repo where
  Name : String
  Path : String
deriving DecidableEq, Repr

instance : Inhabited Repo := ⟨⟨"", ""⟩⟩

/-- Go `FileStatus` from `internal/git/status.go`: one porcelain entry. -/
structure FileStatus where
  XY : String
  File : String
deriving DecidableEq, Repr

instance : Inhabited FileStatus := ⟨⟨"", ""⟩⟩

/-- Go `RepoStatus` from `internal/git/status.go`.  `Age` is the last-commit time
as Unix seconds; the Go zero `time.Time` is modelled as `0` (the code only
tests `IsZero`). -/
structure RepoStatus where
  Branch : String
  Tag : String
  Ahead : Int
  Behind : Int
  Stash : Int
  HasUpstream : Bool
  Age : Int
  Files : List FileStatus
  IsClean : Bool
deriving DecidableEq, Repr

/-- The Go zero value of `RepoStatus` (`var s RepoStatus`). -/
def zeroRepoStatus : RepoStatus :=
  ⟨"", "", 0, 0, 0, false, 0, [], false⟩

instance : Inhabited RepoStatus := ⟨zeroRepoStatus⟩

/-- Raw outputs of the git subcommands `GetStatus` invokes, one field per
command.  `gitOutput` returns `""` when the command fails, so a failing
command is modelled by the corresponding field being `""`. -/
structure GitEnv where
  branchOut : String
  tagOut : String
  upstreamOut : String
  aheadOut : String
  behindOut : String
  stashOut : String
  logTimeOut : String
  porcelainOut : String
deriving DecidableEq, Repr

/-- Go `strings.TrimSpace`: drop whitespace runes from both ends.  (Go trims the
full Unicode space class; the git outputs trimmed here only carry ASCII
whitespace, covered by `Char.isWhitespace`.) -/
def trimSp (s : String) : String :=
  String.mk (((s.data.dropWhile Char.isWhitespace).reverse.dropWhile Char.isWhitespace).reverse)

/-- Go `strings.TrimRight(s, "\n")`: drop trailing newline runes. -/
def trimNlRight (s : String) : String :=
  String.mk ((s.data.reverse.dropWhile (· = '\n')).reverse)

/-- Go `strings.Split(s, "\n")` on the rune list of `s`. -/
def splitNl : List Char → List (List Char)
  | [] => [[]]
  | c :: rest =>
      if c = '\n' then [] :: splitNl rest
      else
        match splitNl rest with
        | [] => [[c]]
        | h :: t => (c :: h) :: t

/-- Decimal digit-string value, `none` if empty or non-digit (helper for the
`strconv.Atoi` model). -/
def digitsValAux : List Char → Nat → Option Nat
  | [], acc => some acc
  | c :: rest, acc =>
      if c.isDigit then digitsValAux rest (acc * 10 + (c.toNat - 48)) else none

/-- Value of a nonempty all-digit rune list. -/
def digitsVal : List Char → Option Nat
  | [] => none
  | l => digitsValAux l 0

/-- Go `strconv.Atoi` with the caller's Go idiom `n, _ = strconv.Atoi(v)`:
returns `0` on any parse failure. -/
def atoiM (s : String) : Int :=
  match s.data with
  | '+' :: r => ((digitsVal r).getD 0 : Nat)
  | '-' :: r => -((digitsVal r).getD 0 : Nat)
  | l => ((digitsVal l).getD 0 : Nat)

/-- One iteration of the porcelain parse loop in `GetStatus`: lines shorter
than 3 characters are skipped; otherwise `XY` is the first two characters and
`File` the text after position 3.  (Go indexes bytes; we model runes — the
porcelain prefix is always ASCII.) -/
def parseLine (line : List Char) : Option FileStatus :=
  if line.length < 3 then none
  else some ⟨String.mk (line.take 2), String.mk (line.drop 3)⟩

/-- The porcelain-parsing part of `GetStatus`: empty output means no files. -/
def parsePorcelain (p : String) : List FileStatus :=
  if p = "" then [] else (splitNl (trimNlRight p).data).filterMap parseLine

/-- Go `GetStatus` from `internal/git/status.go`, as a pure function of the
outputs of the git commands it runs.  `gitLine` is `TrimSpace ∘ gitOutput`,
modelled by `trimSp`. -/
def GetStatusM (env : GitEnv) : RepoStatus :=
  let branch0 := trimSp env.branchOut
  let branch := if branch0 = "" then "HEAD" else branch0
  let tag := trimSp env.tagOut
  let upstream := trimSp env.upstreamOut
  let hasUp := upstream != ""
  let ahead := if hasUp then
      (let v := trimSp env.aheadOut; if v != "" then atoiM v else 0)
    else 0
  let behind := if hasUp then
      (let v := trimSp env.behindOut; if v != "" then atoiM v else 0)
    else 0
  let stash := if env.stashOut != "" then
      ((splitNl (trimSp env.stashOut).data).length : Int)
    else 0
  let age := (let ts := trimSp env.logTimeOut;
      if ts != "" then atoiM ts else 0)
  { Branch := branch
    Tag := tag
    Ahead := ahead
    Behind := behind
    Stash := stash
    HasUpstream := hasUp
    Age := age
    Files := parsePorcelain env.porcelainOut
    IsClean := env.porcelainOut == "" }

/-- The three diff sources `Diff` can select (`internal/git/status.go`):
`untracked` is `git diff --no-index /dev/null <file>` (empty baseline),
`staged` is `git diff --cached`, `unstaged` is `git diff`. -/
inductive DiffCmd
  | untracked (dir file : String)
  | staged (dir file : String)
  | unstaged (dir file : String)
deriving DecidableEq, Repr

/-- Go `Diff(dir, file, xy)` from `internal/git/status.go`.  The unguarded Go
access `xy[0]` panics on an empty code; that panic is modelled as `none`. -/
def Diff (dir file xy : String) : Option DiffCmd :=
  if xy = "??" then some (.untracked dir file)
  else
    match xy.data with
    | [] => none
    | c :: _ => if c ≠ ' ' then some (.staged dir file) else some (.unstaged dir file)

/-- C8: a failed branch query yields the sentinel `"HEAD"`, and that failure
changes the branch field only; a missing upstream forces `ahead = behind = 0`
with `hasUpstream = false` and changes exactly those fields; no failure aborts
the computation of the other fields (stated as record-update equalities). -/
theorem C8_degrade_fields (env : GitEnv) :
    (GetStatusM env).Branch
        = (if trimSp env.branchOut = "" then "HEAD" else trimSp env.branchOut) ∧
      GetStatusM { env with branchOut := "" }
        = { GetStatusM env with Branch := "HEAD" } ∧
      GetStatusM { env with upstreamOut := "" }
        = { GetStatusM env with Ahead := 0, Behind := 0, HasUpstream := false } ∧
      ((GetStatusM env).HasUpstream = false →
        (GetStatusM env).Ahead = 0 ∧ (GetStatusM env).Behind = 0) := by
  refine ⟨rfl, rfl, rfl, fun h => ?_⟩
  simp only [GetStatusM] at h ⊢
  simp [h]

/-- Witness for C8 at a concrete environment where the branch and upstream
queries both fail. -/
theorem C8_degrade_fields_witness :
    (GetStatusM ⟨"", "v1\n", "", "", "", "", "", ""⟩).Branch = "HEAD" ∧
      (GetStatusM ⟨"", "v1\n", "", "", "", "", "", ""⟩).Ahead = 0 ∧
      (GetStatusM ⟨"", "v1\n", "", "", "", "", "", ""⟩).Behind = 0 :=
  ⟨(C8_degrade_fields ⟨"", "v1\n", "", "", "", "", "", ""⟩).1.trans (by decide),
    ((C8_degrade_fields ⟨"", "v1\n", "", "", "", "", "", ""⟩).2.2.2 (by decide)).1,
    ((C8_degrade_fields ⟨"", "v1\n", "", "", "", "", "", ""⟩).2.2.2 (by decide)).2⟩

/-- C10: every `FileStatus` produced by the porcelain parser has a code of
length exactly 2 (lines shorter than 3 characters are skipped), so `Diff`'s
access to the first character of the code always succeeds on such a code. -/
theorem C10_xy_length_two (p : String) (f : FileStatus)
    (hf : f ∈ parsePorcelain p) (dir file : String) :
    f.XY.length = 2 ∧ (Diff dir file f.XY).isSome = true := by
  have hxy : f.XY.data.length = 2 := by
    unfold parsePorcelain at hf
    split at hf
    · simp at hf
    · obtain ⟨line, _, hline⟩ := List.mem_filterMap.mp hf
      unfold parseLine at hline
      split at hline
      · simp at hline
      · rename_i hlen
        have h3 : 3 ≤ line.length := Nat.le_of_not_lt hlen
        obtain rfl := Option.some_injective _ hline
        show (line.take 2).length = 2
        rw [List.length_take]
        omega
  refine ⟨hxy, ?_⟩
  unfold Diff
  split
  · rfl
  · rcases hd : f.XY.data with _ | ⟨c, rest⟩
    · rw [hd] at hxy; simp at hxy
    · by_cases hc : c ≠ ' ' <;> simp [hc]

/-- Witness for C10 on a concrete porcelain output with a modified and an
untracked file. -/
theorem C10_xy_length_two_witness :
    (⟨" M", "a.go"⟩ : FileStatus) ∈ parsePorcelain " M a.go\n?? b.go\n" ∧
      (⟨" M", "a.go"⟩ : FileStatus).XY.length = 2 ∧
      (Diff "/r" "a.go" (⟨" M", "a.go"⟩ : FileStatus).XY).isSome = true :=
  ⟨by decide,
    C10_xy_length_two " M a.go\n?? b.go\n" ⟨" M", "a.go"⟩ (by decide) "/r" "a.go"⟩

/-! Section cmd/git.go : gatherEntries — concurrent fill and deterministic sort -/

/-- Go `repoEntry` from `cmd/git.go`: a repo paired with its status snapshot. -/
structure repoEntry where
  repo : Repo
  status : RepoStatus
deriving DecidableEq, Repr

instance : Inhabited repoEntry := ⟨⟨default, default⟩⟩

/-- Go `cmp.Compare` on Go strings (byte-lexicographic; UTF-8 byte order agrees
with code-point order, which is Lean's `String` order). -/
def cmpStr (a b : String) : Int :=
  if a < b then -1 else if a = b then 0 else 1

/-- The comparator passed to `slices.SortFunc` in `gatherEntries`: dirty
entries first, then repo name ascending. -/
def cmpEntry (a b : repoEntry) : Int :=
  let da := !a.status.IsClean
  let db := !b.status.IsClean
  if da ≠ db then (if da then -1 else 1)
  else cmpStr a.repo.Name b.repo.Name

/-- The total preorder induced by the comparator. -/
def entryLE (a b : repoEntry) : Prop := cmpEntry a b ≤ 0

instance : DecidableRel entryLE := fun a b => by
  unfold entryLE; infer_instance

theorem cmpStr_le_iff {a b : String} : cmpStr a b ≤ 0 ↔ a ≤ b := by
  unfold cmpStr
  rcases lt_trichotomy a b with h | h | h
  · simp [h, le_of_lt h]
  · simp [h]
  · rw [if_neg (not_lt_of_gt h), if_neg (ne_of_gt h)]
    exact iff_of_false (by norm_num) (not_le_of_gt h)

/-- Dirtiness as a sort rank: dirty = 0 (first), clean = 1. -/
def dirtyRank (e : repoEntry) : Nat := if e.status.IsClean then 1 else 0

theorem entryLE_iff {a b : repoEntry} :
    entryLE a b ↔
      (dirtyRank a < dirtyRank b ∨
        (dirtyRank a = dirtyRank b ∧ a.repo.Name ≤ b.repo.Name)) := by
  unfold entryLE cmpEntry dirtyRank
  cases ha : a.status.IsClean <;> cases hb : b.status.IsClean <;>
    simp [ha, hb, cmpStr_le_iff]

instance : IsTotal repoEntry entryLE := ⟨fun a b => by
  rw [entryLE_iff, entryLE_iff]
  rcases Nat.lt_trichotomy (dirtyRank a) (dirtyRank b) with h | h | h
  · exact Or.inl (Or.inl h)
  · rcases le_total a.repo.Name b.repo.Name with hn | hn
    · exact Or.inl (Or.inr ⟨h, hn⟩)
    · exact Or.inr (Or.inr ⟨h.symm, hn⟩)
  · exact Or.inr (Or.inl h)⟩

instance : IsTrans repoEntry entryLE := ⟨fun a b c hab hbc => by
  rw [entryLE_iff] at hab hbc ⊢
  rcases hab with h1 | ⟨e1, n1⟩ <;> rcases hbc with h2 | ⟨e2, n2⟩
  · exact Or.inl (by omega)
  · exact Or.inl (by omega)
  · exact Or.inl (by omega)
  · exact Or.inr ⟨by omega, le_trans n1 n2⟩⟩

/-- The ordering the spec requires of the sorted entries: a clean entry never
precedes a dirty one, and among entries of equal dirtiness names ascend. -/
def entriesOrdered (a b : repoEntry) : Prop :=
  (a.status.IsClean = true → b.status.IsClean = true) ∧
    (a.status.IsClean = b.status.IsClean → a.repo.Name ≤ b.repo.Name)

theorem entryLE_implies {a b : repoEntry} (h : entryLE a b) : entriesOrdered a b := by
  rw [entryLE_iff] at h
  unfold entriesOrdered
  unfold dirtyRank at h
  cases ha : a.status.IsClean <;> cases hb : b.status.IsClean <;>
    simp [ha, hb] at h ⊢ <;> tauto

/-- Go `slices.SortFunc(entries, cmp)`: its contract is a permutation of the
input sorted w.r.t. the comparator; realised here by insertion sort over
`entryLE`. -/
def sortEntries (l : List repoEntry) : List repoEntry :=
  List.insertionSort entryLE l

/-- One worker's status write, `entries[i].status = git.GetStatus(r.Path)`:
the repo field was already set to `repos[i]` by the spawning loop. -/
def statusUpd (get : Repo → RepoStatus) (e : repoEntry) : repoEntry :=
  { e with status := get e.repo }

/-- Write the status of slot `i` (out-of-range writes are impossible in the
source; they leave the list unchanged here). -/
def setStatusAt (get : Repo → RepoStatus) : List repoEntry → Nat → List repoEntry
  | [], _ => []
  | e :: t, 0 => statusUpd get e :: t
  | e :: t, n + 1 => e :: setStatusAt get t n

/-- Go `entries := make([]repoEntry, len(repos))` followed by the sequential
`entries[i].repo = r` writes of the spawning loop. -/
def initialEntries (repos : List Repo) : List repoEntry :=
  repos.map fun r => ⟨r, zeroRepoStatus⟩

/-- The concurrent fan-out and join of `gatherEntries`: every worker `i`
writes `entries[i].status`; `sched` is the order in which workers finish. -/
def fillSched (repos : List Repo) (get : Repo → RepoStatus) (sched : List Nat) :
    List repoEntry :=
  sched.foldl (setStatusAt get) (initialEntries repos)

/-- The schedule-independent result: each slot paired with its status. -/
def gatherFill (repos : List Repo) (get : Repo → RepoStatus) : List repoEntry :=
  repos.map fun r => ⟨r, get r⟩

/-- Go `gatherEntries` after the join barrier and the sort. -/
def gatherEntries (repos : List Repo) (get : Repo → RepoStatus) : List repoEntry :=
  sortEntries (gatherFill repos get)

theorem statusUpd_idem (get : Repo → RepoStatus) (e : repoEntry) :
    statusUpd get (statusUpd get e) = statusUpd get e := rfl

theorem setStatusAt_getElem? (get : Repo → RepoStatus) (l : List repoEntry) (i j : Nat) :
    (setStatusAt get l i)[j]? =
      if j = i then (l[j]?).map (statusUpd get) else l[j]? := by
  induction l generalizing i j with
  | nil => simp [setStatusAt]
  | cons e t ih =>
      cases i with
      | zero => cases j <;> simp [setStatusAt]
      | succ n =>
          cases j with
          | zero => simp [setStatusAt]
          | succ m => simpa [setStatusAt] using ih n m

theorem fillLoop_getElem? (get : Repo → RepoStatus) (sched : List Nat)
    (l : List repoEntry) (j : Nat) :
    (sched.foldl (setStatusAt get) l)[j]? =
      if j ∈ sched then (l[j]?).map (statusUpd get) else l[j]? := by
  induction sched generalizing l with
  | nil => simp
  | cons i t ih =>
      rw [List.foldl_cons, ih]
      simp only [setStatusAt_getElem?, List.mem_cons]
      by_cases hij : j = i
      · simp only [hij, if_true, true_or, if_pos rfl]
        by_cases hj : j ∈ t
        · rw [if_pos (hij ▸ hj), Option.map_map]
          cases l[j]? <;> rfl
        · rw [if_neg (hij ▸ hj)]
      · simp only [hij, false_or, if_neg hij, if_false]

theorem fillSched_eq (repos : List Repo) (get : Repo → RepoStatus)
    (sched : List Nat) (hs : ∀ j < repos.length, j ∈ sched) :
    fillSched repos get sched = gatherFill repos get := by
  apply List.ext_getElem?
  intro j
  rw [fillSched, fillLoop_getElem?]
  unfold initialEntries gatherFill
  by_cases hj : j < repos.length
  · rw [if_pos (hs j hj), List.getElem?_map, List.getElem?_map, Option.map_map]
    cases repos[j]? <;> rfl
  · have h1 : repos[j]? = none := by
      rw [List.getElem?_eq_none_iff]
      exact le_of_not_lt hj
    by_cases hm : j ∈ sched <;> simp [hm, List.getElem?_map, h1]

/-- C1: the filled entries list is the same for every order in which the
concurrent workers finish (a deterministic function of the (repo, status)
pairs alone); after sorting, it is a permutation of the collected entries in
which every dirty entry precedes every clean one and entries of equal
dirtiness are ordered by repo name ascending. -/
theorem C1_sort_deterministic (repos : List Repo) (get : Repo → RepoStatus)
    (sched : List Nat) (hs : ∀ j < repos.length, j ∈ sched) :
    fillSched repos get sched = gatherFill repos get ∧
      List.Perm (sortEntries (fillSched repos get sched)) (gatherFill repos get) ∧
      List.Pairwise entriesOrdered (sortEntries (fillSched repos get sched)) := by
  have he := fillSched_eq repos get sched hs
  refine ⟨he, ?_, ?_⟩
  · rw [he]
    exact List.perm_insertionSort entryLE _
  · exact List.Pairwise.imp (fun h => entryLE_implies h)
      (List.sorted_insertionSort entryLE _)

/-- Witness for C1: two repos, the clean one named before the dirty one, with
the workers finishing in reverse order. -/
theorem C1_sort_deterministic_witness :
    (∀ j < ([⟨"b", "/b"⟩, ⟨"a", "/a"⟩] : List Repo).length, j ∈ [1, 0]) ∧
      (fillSched [⟨"b", "/b"⟩, ⟨"a", "/a"⟩]
          (fun r => { zeroRepoStatus with IsClean := r.Name == "a" }) [1, 0]
        = gatherFill [⟨"b", "/b"⟩, ⟨"a", "/a"⟩]
          (fun r => { zeroRepoStatus with IsClean := r.Name == "a" }) ∧
       List.Perm
         (sortEntries (fillSched [⟨"b", "/b"⟩, ⟨"a", "/a"⟩]
           (fun r => { zeroRepoStatus with IsClean := r.Name == "a" }) [1, 0]))
         (gatherFill [⟨"b", "/b"⟩, ⟨"a", "/a"⟩]
           (fun r => { zeroRepoStatus with IsClean := r.Name == "a" })) ∧
       List.Pairwise entriesOrdered
         (sortEntries (fillSched [⟨"b", "/b"⟩, ⟨"a", "/a"⟩]
           (fun r => { zeroRepoStatus with IsClean := r.Name == "a" }) [1, 0]))) :=
  ⟨by decide, C1_sort_deterministic _ _ _ (by decide)⟩

/-! Section cmd/git.go : flattenRows -/

/-- Go `rowKind` from cmd/git.go. -/
inductive rowKind
  | rowRepo
  | rowFile
deriving DecidableEq, Repr

/-- Go `row` from cmd/git.go.  Go leaves `fileIdx`, `filePath`, `fileXY` at their
zero values for repo rows. -/
structure row where
  kind : rowKind
  entryIdx : Nat
  fileIdx : Nat
  repoName : String
  filePath : String
  fileXY : String
deriving DecidableEq, Repr

instance : Inhabited row := ⟨⟨.rowRepo, 0, 0, "", "", ""⟩⟩

/-- Go `strings.Split` on the 4-rune separator `" -> "`. -/
def splitArrow : List Char → List (List Char)
  | ' ' :: '-' :: '>' :: ' ' :: rest => [] :: splitArrow rest
  | c :: rest =>
      match splitArrow rest with
      | [] => [[c]]
      | h :: t => (c :: h) :: t
  | [] => [[]]

/-- Re-join split parts with `" -> "` (to recover `SplitN(path, " -> ", 2)[1]`,
everything after the first separator). -/
def joinArrow : List (List Char) → List Char
  | [] => []
  | [l] => l
  | l :: ls => l ++ (' ' :: '-' :: '>' :: ' ' :: joinArrow ls)

/-- The rename handling in `flattenRows`: if the path contains `" -> "`, keep
only the part after the first separator (the new name). -/
def renamePath (p : String) : String :=
  match splitArrow p.data with
  | [] => p
  | [_] => p
  | _ :: rest => String.mk (joinArrow rest)

/-- The inner loop of `flattenRows`: one FileRow per file, in file order. -/
def fileRowsFrom (i : Nat) (name : String) : Nat → List FileStatus → List row
  | _, [] => []
  | j, f :: fs =>
      ({ kind := .rowFile, entryIdx := i, fileIdx := j, repoName := name,
         filePath := renamePath f.File, fileXY := f.XY } : row)
        :: fileRowsFrom i name (j + 1) fs

/-- The outer loop of `flattenRows`: one RepoRow per entry followed by its
FileRows. -/
def flattenFrom : Nat → List repoEntry → List row
  | _, [] => []
  | i, e :: t =>
      ({ kind := .rowRepo, entryIdx := i, fileIdx := 0, repoName := e.repo.Name,
         filePath := "", fileXY := "" } : row)
        :: (fileRowsFrom i e.repo.Name 0 e.status.Files ++ flattenFrom (i + 1) t)

/-- Go `flattenRows` from cmd/git.go. -/
def flattenRows (entries : List repoEntry) : List row :=
  flattenFrom 0 entries

theorem fileRowsFrom_length (i : Nat) (name : String) (j : Nat)
    (fs : List FileStatus) : (fileRowsFrom i name j fs).length = fs.length := by
  induction fs generalizing j with
  | nil => rfl
  | cons f fs ih => simp [fileRowsFrom, ih]

theorem flattenFrom_length (i : Nat) (entries : List repoEntry) :
    (flattenFrom i entries).length =
      ((entries.map fun e => 1 + e.status.Files.length).sum) := by
  induction entries generalizing i with
  | nil => rfl
  | cons e t ih =>
      simp [flattenFrom, fileRowsFrom_length, ih]
      omega

theorem GetStatusM_clean_files (env : GitEnv) :
    (GetStatusM env).IsClean = true → (GetStatusM env).Files = [] := by
  intro h
  simp only [GetStatusM] at h ⊢
  have h' : env.porcelainOut = "" := by simpa using h
  simp [parsePorcelain, h']

/-- C2: for entries produced by the collector (one `GetStatus` snapshot per
repo, then sorted), the flattened row count is the sum over entries of 1 for
a clean entry and `1 + fileCount` for a dirty one — a clean snapshot can
carry no files, so it contributes exactly its RepoRow. -/
theorem C2_row_count_law (repos : List Repo) (env : Repo → GitEnv) :
    (flattenRows (gatherEntries repos fun r => GetStatusM (env r))).length =
      ((gatherEntries repos fun r => GetStatusM (env r)).map
        fun e => if e.status.IsClean then 1 else 1 + e.status.Files.length).sum := by
  rw [flattenRows, flattenFrom_length]
  apply congrArg List.sum
  apply List.map_congr_left
  intro e he
  by_cases hc : e.status.IsClean = true
  · rw [if_pos hc]
    have hmem : e ∈ gatherFill repos fun r => GetStatusM (env r) :=
      (List.mem_insertionSort entryLE).mp he
    obtain ⟨r, _, rfl⟩ := List.mem_map.mp hmem
    rw [GetStatusM_clean_files (env r) hc]
    rfl
  · rw [if_neg hc]

/-! Section cmd/git.go : the TUI model, cursor navigation and selection -/

/-- The fields of `gitModel` that drive list navigation and the List→Detail
transition.  `diff` holds the selected diff source (`git.Diff`'s command). -/
structure gitModel where
  entries : List repoEntry
  rows : List row
  cursor : Nat
  viewing : Bool
  detail : Scroll
  diff : Option DiffCmd
deriving Repr

/-- Go `updateList` on `"up"`/`"k"`: wrap to the last row from row 0. -/
def listUp (m : gitModel) : gitModel :=
  if m.cursor > 0 then { m with cursor := m.cursor - 1 }
  else if m.rows.length > 0 then { m with cursor := m.rows.length - 1 }
  else m

/-- Go `updateList` on `"down"`/`"j"`: wrap to row 0 from the last row. -/
def listDown (m : gitModel) : gitModel :=
  if m.cursor < m.rows.length - 1 then { m with cursor := m.cursor + 1 }
  else { m with cursor := 0 }

/-- Go `updateList` on `"enter"`/`"right"`/`"l"`: select the row under the
cursor.  Only FileRows react: load the diff, enter Detail (`viewing = true`),
reset the detail scroll to the zero `ui.Scroll{}`. -/
def listSelect (m : gitModel) : gitModel :=
  if h : m.cursor < m.rows.length then
    let r := m.rows.get ⟨m.cursor, h⟩
    if r.kind = .rowFile then
      let e := m.entries.getD r.entryIdx default
      { m with diff := Diff e.repo.Path r.filePath r.fileXY,
               viewing := true,
               detail := ⟨0, 0, 0⟩ }
    else m
  else m

/-- C6: cursor navigation in List is cyclic for every non-empty row list —
down on the last row wraps to index 0, up on row 0 wraps to the last row, and
strictly inside the list the cursor moves by one (never clamped). -/
theorem C6_cursor_cyclic (m : gitModel) (hne : m.rows ≠ []) :
    (m.cursor = m.rows.length - 1 → (listDown m).cursor = 0) ∧
      (m.cursor = 0 → (listUp m).cursor = m.rows.length - 1) ∧
      (m.cursor < m.rows.length - 1 → (listDown m).cursor = m.cursor + 1) ∧
      (0 < m.cursor → (listUp m).cursor = m.cursor - 1) := by
  have hl : 0 < m.rows.length := List.length_pos.mpr hne
  refine ⟨fun h => ?_, fun h => ?_, fun h => ?_, fun h => ?_⟩
  · simp [listDown, h]
  · simp [listUp, h, hl]
  · simp [listDown, h]
  · simp [listUp, h]

/-- Witness for C6 on a two-row model. -/
theorem C6_cursor_cyclic_witness :
    (gitModel.mk [] [default, default] 1 false ⟨0, 0, 0⟩ none).rows ≠ [] ∧
      (listDown (gitModel.mk [] [default, default] 1 false ⟨0, 0, 0⟩ none)).cursor = 0 :=
  ⟨by decide,
    (C6_cursor_cyclic (gitModel.mk [] [default, default] 1 false ⟨0, 0, 0⟩ none)
      (by decide)).1 (by decide)⟩

/-- C7: pressing select with the cursor on a RepoRow leaves the model
unchanged; on a FileRow it enters Detail with a freshly zeroed Scroll
(offset 0) and a diff whose source is chosen by the status code — `"??"`
diffs against the empty baseline, any other code whose first character is not
a space uses the staged source, otherwise the unstaged source. -/
theorem C7_select_transitions (m : gitModel) (h : m.cursor < m.rows.length)
    (dir : String) :
    ((m.rows.get ⟨m.cursor, h⟩).kind = .rowRepo → listSelect m = m) ∧
      ((m.rows.get ⟨m.cursor, h⟩).kind = .rowFile →
        (listSelect m).viewing = true ∧
        (listSelect m).detail = ⟨0, 0, 0⟩ ∧
        (listSelect m).diff =
          Diff (m.entries.getD (m.rows.get ⟨m.cursor, h⟩).entryIdx default).repo.Path
            (m.rows.get ⟨m.cursor, h⟩).filePath
            (m.rows.get ⟨m.cursor, h⟩).fileXY) ∧
      (∀ file xy c cs, xy.data = c :: cs →
        (xy = "??" → Diff dir file xy = some (.untracked dir file)) ∧
        (xy ≠ "??" → c ≠ ' ' → Diff dir file xy = some (.staged dir file)) ∧
        (xy ≠ "??" → c = ' ' → Diff dir file xy = some (.unstaged dir file))) := by
  refine ⟨fun hk => ?_, fun hk => ?_, fun file xy c cs hxy => ⟨fun hq => ?_, fun hq hc => ?_, fun hq hc => ?_⟩⟩
  · unfold listSelect
    rw [dif_pos h]
    simp only [hk]
    rfl
  · unfold listSelect
    rw [dif_pos h]
    simp only [hk]
    exact ⟨rfl, rfl, rfl⟩
  · simp [Diff, hq]
  · unfold Diff
    rw [if_neg hq, hxy]
    simp [hc]
  · unfold Diff
    rw [if_neg hq, hxy]
    simp [hc]

/-- Witness sample for C7: one dirty repo with a single modified file; the
cursor sits on its FileRow (index 1). -/
def sampleModel7 : gitModel :=
  ⟨[⟨⟨"r", "/r"⟩, { zeroRepoStatus with Files := [⟨" M", "a.go"⟩] }⟩],
    flattenRows [⟨⟨"r", "/r"⟩, { zeroRepoStatus with Files := [⟨" M", "a.go"⟩] }⟩],
    1, false, ⟨0, 0, 0⟩, none⟩

/-- Witness for C7: selecting the FileRow enters Detail with a zeroed scroll. -/
theorem C7_select_transitions_witness :
    sampleModel7.cursor < sampleModel7.rows.length ∧
      (listSelect sampleModel7).viewing = true ∧
      (listSelect sampleModel7).detail = ⟨0, 0, 0⟩ :=
  ⟨by decide,
    ((C7_select_transitions sampleModel7 (by decide) "/r").2.1 (by decide)).1,
    ((C7_select_transitions sampleModel7 (by decide) "/r").2.1 (by decide)).2.1⟩

/-! Section internal/ui/styles.go and cmd/git.go : widths, styles, rendering -/

/-- Go `runewidth.RuneWidth` under the default (non-East-Asian) condition:
0 for control and combining marks, 2 for wide CJK ranges, 1 otherwise. -/
def runeWidth (c : Char) : Nat :=
  let n := c.toNat
  if n < 0x20 ∨ (0x7F ≤ n ∧ n < 0xA0) then 0
  else if 0x300 ≤ n ∧ n ≤ 0x36F then 0
  else if (0x1100 ≤ n ∧ n ≤ 0x115F) ∨ (0x2E80 ≤ n ∧ n ≤ 0x303E) ∨
      (0x3041 ≤ n ∧ n ≤ 0x33FF) ∨ (0x3400 ≤ n ∧ n ≤ 0x4DBF) ∨
      (0x4E00 ≤ n ∧ n ≤ 0x9FFF) ∨ (0xA000 ≤ n ∧ n ≤ 0xA4CF) ∨
      (0xAC00 ≤ n ∧ n ≤ 0xD7A3) ∨ (0xF900 ≤ n ∧ n ≤ 0xFAFF) ∨
      (0xFE30 ≤ n ∧ n ≤ 0xFE4F) ∨ (0xFF00 ≤ n ∧ n ≤ 0xFF60) ∨
      (0xFFE0 ≤ n ∧ n ≤ 0xFFE6) ∨ (0x20000 ≤ n ∧ n ≤ 0x3FFFD) then 2
  else 1

/-- Display-cell width of a rune list. -/
def widthL (l : List Char) : Nat := (l.map runeWidth).sum

/-- Go `runewidth.StringWidth`. -/
def strWidth (s : String) : Nat := widthL s.data

/-- Go `strings.Repeat` (count is a Go int; the call sites guarantee it is
nonnegative). -/
def strRepeat (s : String) (n : Int) : String :=
  String.join (List.replicate n.toNat s)

/-- Go `strings.Join(parts, sep)`. -/
def strJoin (sep : String) : List String → String
  | [] => ""
  | s :: ss => ss.foldl (fun acc x => acc ++ sep ++ x) s

/-- A `lipgloss` style render, modelled as an SGR escape wrapper.  The actual
escape bytes lipgloss emits depend on the detected terminal profile; the
analysis below only needs each style to be a fixed string transformer. -/
def sgr (code : String) (s : String) : String :=
  "\x1b[" ++ code ++ "m" ++ s ++ "\x1b[0m"

/-- Go `ui.Bold`. -/
def uiBold (s : String) : String := sgr "1" s

/-- Go `ui.Faint`. -/
def uiFaint (s : String) : String := sgr "2" s

/-- Go `ui.Yellow`. -/
def uiYellow (s : String) : String := sgr "33" s

/-- Go `ui.Green`. -/
def uiGreen (s : String) : String := sgr "32" s

/-- Go `ui.Red`. -/
def uiRed (s : String) : String := sgr "31" s

/-- Go `ui.Cyan`. -/
def uiCyan (s : String) : String := sgr "36" s

/-- Go `ui.Cursor` (bold magenta). -/
def uiCursor (s : String) : String := sgr "1;35" s

/-- Go `ui.RelativeTime` from `internal/ui/styles.go`, over Unix seconds: `now`
is the wall clock sampled by `time.Since`, `t` the last-commit time (0 is the
zero `time.Time`).  All reached divisions have nonnegative operands, so Go's
float truncation agrees with integer division. -/
def RelativeTime (now t : Int) : String :=
  if t = 0 then ""
  else
    let d := now - t
    if d < 60 then "now"
    else if d < 3600 then toString (d / 60) ++ "m"
    else if d < 86400 then toString (d / 3600) ++ "h"
    else if d < 604800 then toString (d / 86400) ++ "d"
    else if d < 2592000 then toString (d / 604800) ++ "w"
    else if d < 31536000 then toString (d / 2592000) ++ "mo"
    else toString (d / 31536000) ++ "y"

/-- Go `gitModel.renderRepoRow` from cmd/git.go with the already-formatted age
string as a parameter (the only way the wall clock enters the render). -/
def renderRepoRowAux (e : repoEntry) (width : Int) (cursor : Bool)
    (age : String) : String :=
  let s := e.status
  let branch := s.Branch
  let info :=
    [branch]
      ++ (if age ≠ "" then [age] else [])
      ++ (if !s.HasUpstream then ["∅"]
          else if s.Ahead > 0 then ["↑" ++ toString s.Ahead] else [])
      ++ (if s.Behind > 0 then ["↓" ++ toString s.Behind] else [])
      ++ (if s.Stash > 0 then ["≡" ++ toString s.Stash] else [])
      ++ (if s.Tag ≠ "" then ["@" ++ s.Tag] else [])
  let right := strJoin "  " info
  let left := "── " ++ e.repo.Name ++ " "
  let available0 := width - (strWidth left : Int) - (strWidth right : Int) - 4
  let available := if available0 < 3 then 3 else available0
  let dots := strRepeat "·" available
  if cursor then
    uiCursor ("▸ " ++ e.repo.Name ++ " ") ++ uiCursor (dots ++ " ") ++ uiCursor right
  else
    let styledRight :=
      (if !s.IsClean then [uiCyan branch] else [branch])
        ++ (if age ≠ "" then [uiFaint age] else [])
        ++ (if !s.HasUpstream then [uiFaint "∅"]
            else if s.Ahead > 0 then [uiGreen ("↑" ++ toString s.Ahead)] else [])
        ++ (if s.Behind > 0 then [uiRed ("↓" ++ toString s.Behind)] else [])
        ++ (if s.Stash > 0 then ["≡" ++ toString s.Stash] else [])
        ++ (if s.Tag ≠ "" then [uiYellow ("@" ++ s.Tag)] else [])
    uiFaint "  ── " ++ uiBold e.repo.Name ++ " " ++ uiFaint (dots ++ " ") ++
      strJoin "  " styledRight

/-- Go `gitModel.renderRepoRow`, including its call to `ui.RelativeTime`, which
reads the wall clock (`time.Since`) at render time. -/
def renderRepoRow (e : repoEntry) (width : Int) (cursor : Bool) (now : Int) :
    String :=
  renderRepoRowAux e width cursor (RelativeTime now e.status.Age)

/-- Sample entry for C5: clean repo on `main`, last commit at second 1. -/
def sampleEntry5 : repoEntry :=
  ⟨⟨"r", "/r"⟩, { zeroRepoStatus with
    Branch := "main", Age := 1, IsClean := true, HasUpstream := true }⟩

/-- C5 counterexample: the same entry rendered at the same width at two
different wall-clock instants produces different bytes (the age column moves
from `now` to `2h`), so rendering is not a function of (rows, width) alone. -/
theorem C5_render_time_dependent_cex :
    renderRepoRow sampleEntry5 20 false 1 ≠ renderRepoRow sampleEntry5 20 false 7201 := by
  decide

/-- C5 (amended): rendering is a pure function of the row data, the terminal
width, and the wall clock, and the clock enters only through the formatted
relative-time string — two renders agree whenever that string agrees. -/
theorem C5_render_pure_given_clock (e : repoEntry) (width : Int) (cursor : Bool)
    (n1 n2 : Int)
    (h : RelativeTime n1 e.status.Age = RelativeTime n2 e.status.Age) :
    renderRepoRow e width cursor n1 = renderRepoRow e width cursor n2 := by
  unfold renderRepoRow
  rw [h]

/-- Witness for the amended C5: 60 s and 118 s both format as `1m`, and the
renders at those instants agree byte-for-byte. -/
theorem C5_render_pure_given_clock_witness :
    RelativeTime 61 1 = RelativeTime 119 1 ∧
      renderRepoRow sampleEntry5 20 false 61 = renderRepoRow sampleEntry5 20 false 119 :=
  ⟨by decide, C5_render_pure_given_clock sampleEntry5 20 false 61 119 (by decide)⟩

/-! Section internal/ui/styles.go : Truncate -/

/-- The accumulation loop of `Truncate`: take leading runes while the running
width stays within `max − 1` cells (one cell reserved for the ellipsis). -/
def truncLoop : List Char → Int → Int → List Char
  | [], _, _ => []
  | c :: t, cur, mx =>
      if cur + (runeWidth c : Int) > mx - 1 then []
      else c :: truncLoop t (cur + (runeWidth c : Int)) mx

/-- Go `ui.Truncate` from `internal/ui/styles.go`. -/
def Truncate (s : String) (mx : Int) : String :=
  if mx ≤ 0 then ""
  else if (strWidth s : Int) ≤ mx then s
  else String.mk (truncLoop s.data 0 mx) ++ "…"

/-- Suffix test on strings (rune-level `strings.HasSuffix`). -/
def endsWithM (s post : String) : Bool :=
  s.data.reverse.take post.data.length == post.data.reverse

theorem data_append (a b : String) : (a ++ b).data = a.data ++ b.data := rfl

theorem truncLoop_leading (l : List Char) (cur mx : Int) :
    truncLoop l cur mx <+: l := by
  induction l generalizing cur with
  | nil => exact ⟨[], rfl⟩
  | cons c t ih =>
      unfold truncLoop
      split
      · exact ⟨c :: t, rfl⟩
      · obtain ⟨w, hw⟩ := ih (cur + (runeWidth c : Int))
        exact ⟨w, by rw [List.cons_append, hw]⟩

theorem truncLoop_width (l : List Char) (cur mx : Int) (h : cur ≤ mx - 1) :
    cur + (widthL (truncLoop l cur mx) : Int) ≤ mx - 1 := by
  induction l generalizing cur with
  | nil => simpa [truncLoop, widthL]
  | cons c t ih =>
      unfold truncLoop
      split
      · simpa [widthL]
      · rename_i hc
        have hrec := ih (cur + (runeWidth c : Int)) (by omega)
        simp only [widthL, List.map_cons, List.sum_cons] at hrec ⊢
        push_cast at hrec ⊢
        omega

/-- C9 (amended): `Truncate` keeps a leading segment of the string and elides
the tail behind a single appended ellipsis (not the leading part): the result
fits in `max` display cells, a string that already fits is returned
unchanged, and an overlong string becomes a leading segment plus `…`. -/
theorem C9_truncate_amended (s : String) (mx : Int) (hmx : 0 < mx) :
    ((strWidth (Truncate s mx) : Int) ≤ mx) ∧
      ((strWidth s : Int) ≤ mx → Truncate s mx = s) ∧
      (mx < (strWidth s : Int) →
        ∃ l, l <+: s.data ∧ (Truncate s mx).data = l ++ ['…']) := by
  refine ⟨?_, fun hfit => ?_, fun hover => ?_⟩
  · unfold Truncate
    rw [if_neg (by omega)]
    by_cases hfit : (strWidth s : Int) ≤ mx
    · rw [if_pos hfit]
      exact hfit
    · rw [if_neg hfit]
      have hw := truncLoop_width s.data 0 mx (by omega)
      have hwe : strWidth (String.mk (truncLoop s.data 0 mx) ++ "…")
          = widthL (truncLoop s.data 0 mx) + 1 := by
        show widthL (truncLoop s.data 0 mx ++ ['…']) = _
        simp [widthL]
        decide
      rw [hwe]
      push_cast
      omega
  · unfold Truncate
    rw [if_neg (by omega), if_pos hfit]
  · refine ⟨truncLoop s.data 0 mx, truncLoop_leading s.data 0 mx, ?_⟩
    unfold Truncate
    rw [if_neg (by omega), if_neg (by omega)]
    rfl

/-- Witness for the amended C9 at `Truncate "abc/def" 5 = "abc/…"`. -/
theorem C9_truncate_amended_witness :
    (0 : Int) < 5 ∧
      ((strWidth (Truncate "abc/def" 5) : Int) ≤ 5 ∧
        ((strWidth "abc/def" : Int) ≤ 5 → Truncate "abc/def" 5 = "abc/def") ∧
        ((5 : Int) < (strWidth "abc/def" : Int) →
          ∃ l, l <+: "abc/def".data ∧ (Truncate "abc/def" 5).data = l ++ ['…'])) :=
  ⟨by decide, C9_truncate_amended "abc/def" 5 (by decide)⟩

/-- C9 counterexample: for the 7-cell path `"abc/def"` truncated to 5 cells
the code keeps the leading segment and drops the trailing filename `"def"`,
although a 5-cell result keeping the trailing segment exists (`"…/def"`). -/
theorem C9_truncate_tail_lost_cex :
    Truncate "abc/def" 5 = "abc/…" ∧
      endsWithM (Truncate "abc/def" 5) "def" = false ∧
      endsWithM "…/def" "def" = true ∧
      (strWidth "…/def" : Int) ≤ 5 := by
  decide

end Lz
